import Mathlib

/-
Verification of the pattern-based legal issue detector of LegalLens-AI
(`src/lib/legal-patterns.ts`) against its natural-language specification.

The TypeScript source is shallowly embedded as follows.

* Document text is a `String`, processed as its `List Char`.
* The regular expressions of the rule registry fall into a small class:
  alternations of literal fragments joined by greedy `.*` (all with the
  `g` flag and, except one, the `i` flag), plus one anchored
  negative-lookahead pattern `^(?!.*w1)...(?!.*wk).*$` with no flags.
  The class is embedded as the inductive type `Pat`, whose matching
  semantics (`jsMatchList`, modelling `String.prototype.match`) follows
  the ECMAScript semantics: leftmost match position, alternatives tried
  in order, `.*` greedy, `g`-flag iteration resuming at the end of the
  previous match.  Matching happens on the cleaned text, which contains
  no newline (every whitespace run has been collapsed to one space), so
  `.` is an arbitrary-character wildcard there.
* JavaScript numbers are IEEE 754 binary64 values.  All numbers that
  arise here (the literals 0.25 / 0.15 / 0.1, and running sums bounded
  by 1.2) are normal and far from overflow and underflow, so binary64
  arithmetic is embedded exactly as: a finite double is a rational, a
  decimal literal denotes `fl` of its exact value, and each `+` rounds
  the exact rational sum back to 53 significant bits with
  round-to-nearest, ties-to-even (`fl`, `fadd`).  `Math.min` on finite
  doubles is exact `min`.
-/

namespace LegalLens

/-! ## Characters and whitespace -/

/-- The ECMAScript `\s` character class (WhiteSpace and LineTerminator
code points), which drives the `replace(/\s+/g, ' ')` normalization in
`analyzeDocument` (legal-patterns.ts:86). -/
def isJsWS (c : Char) : Bool :=
  c = ' ' || c = '\t' || c = '\n' || c = '\r' || c.val = 11 || c.val = 12 ||
  c.val = 0xa0 || c.val = 0x1680 || (0x2000 ≤ c.val && c.val ≤ 0x200a) ||
  c.val = 0x2028 || c.val = 0x2029 || c.val = 0x202f || c.val = 0x205f ||
  c.val = 0x3000 || c.val = 0xfeff

/-- The composite `text.replace(/\n+/g, ' ').replace(/\s+/g, ' ')`
(legal-patterns.ts:86): the first step turns newline runs into single
spaces (whitespace into whitespace), so the composite replaces every
maximal run of whitespace by a single space.  No trimming happens, so a
leading or trailing run also becomes one space. -/
def collapseWS : List Char → List Char
  | [] => []
  | [c] => [if isJsWS c then ' ' else c]
  | c :: d :: cs =>
    if isJsWS c && isJsWS d then collapseWS (d :: cs)
    else (if isJsWS c then ' ' else c) :: collapseWS (d :: cs)

/-- ECMAScript case canonicalization for the `i` flag, restricted to the
ASCII range: every pattern character that occurs in the registry is a
lowercase ASCII letter (or punctuation), and without the `u` flag the
canonicalization never maps a non-ASCII subject character into ASCII, so
ASCII lowercasing of the subject is an exact model. -/
def lowerC (c : Char) : Char :=
  if 'A' ≤ c && c ≤ 'Z' then Char.ofNat (c.toNat + 32) else c

/-! ## Substring and `.*`-sequence matching -/

/-- Whether `p` occurs as a contiguous substring of `s`. -/
def containsSub (p : List Char) : List Char → Bool
  | [] => p.isEmpty
  | c :: cs => p.isPrefixOf (c :: cs) || containsSub p cs

/-- The remainder of `s` just after the first occurrence of `p`, if `p`
occurs in `s` at all. -/
def splitAfter (p : List Char) : List Char → Option (List Char)
  | [] => if p.isEmpty then some [] else none
  | c :: cs =>
    if p.isPrefixOf (c :: cs) then some ((c :: cs).drop p.length)
    else splitAfter p cs

/-- Whether the fragments `ps` occur in `s` in order, each strictly after
the end of the previous one: the matching semantics of the regex
fragment `p1.*p2.*...*pk` viewed as a predicate. -/
def containsSeq : List (List Char) → List Char → Bool
  | [], _ => true
  | p :: ps, s =>
    match splitAfter p s with
    | some rest => containsSeq ps rest
    | none => false

/-- The position just after the last occurrence of `w` in `s` (`none`
when `w` does not occur).  This is where a trailing greedy `.*w` ends. -/
def lastOccEnd (w : List Char) (s : List Char) : Option Nat :=
  (((List.range (s.length + 1)).filter (fun i => w.isPrefixOf (s.drop i))).getLast?).map
    (fun i => i + w.length)

/-- One alternative of a registry regex: literal fragments joined by
greedy `.*`.  `greedyMatchLen alt s` is the length of the match of the
alternative anchored at the start of `s` (`none` when it does not match
there).  With greedy `.*` and backtracking, a matching alternative
`w1.*w2...*wk` ends just after the last occurrence of `wk` that is
reachable, which (given that the fragments occur in order at all) is the
last occurrence of `wk` outright. -/
def greedyMatchLen (alt : List (List Char)) (s : List Char) : Option Nat :=
  match alt with
  | [] => some 0
  | [w] => if w.isPrefixOf s then some w.length else none
  | w :: ws =>
    let rest := s.drop w.length
    if w.isPrefixOf s && containsSeq ws rest then
      (lastOccEnd (ws.getLastD []) rest).map (fun e => w.length + e)
    else none

/-- All matches of the alternation `as` in the subject, in order, as the
`g`-flag iteration of `String.prototype.match` produces them: scan for
the leftmost position where some alternative matches (alternatives tried
in order), record the matched span, resume just after its end.  `subj`
is the case-canonicalized subject driving the matching; `orig` is the
original text (kept in lockstep) from which the spans are taken, since
JavaScript returns spans of the original string.  Every alternative in
the registry has a non-empty first literal, so matches are non-empty and
the empty-match `lastIndex` bump never fires; `max len 1` makes the scan
total regardless. -/
def gSpans (alts : List (List (List Char))) (orig subj : List Char) :
    List (List Char) :=
  match subj with
  | [] =>
    (match alts.findSome? (fun a => greedyMatchLen a ([] : List Char)) with
     | some len => [orig.take len]
     | none => [])
  | s :: subjTail =>
    match alts.findSome? (fun a => greedyMatchLen a (s :: subjTail)) with
    | some len =>
      orig.take len ::
        gSpans alts (orig.drop (max len 1)) ((s :: subjTail).drop (max len 1))
    | none => gSpans alts (orig.drop 1) subjTail
termination_by subj.length
decreasing_by
  · simp only [List.length_drop, List.length_cons]
    omega
  · simp

/-- The registry's regexes.

* `alts ci as`: an alternation of `.*`-joined literal sequences, with the
  `g` flag and, when `ci`, the `i` flag.
* `negLook ws`: the anchored pattern `^(?!.*w1)...(?!.*wk).*$` with no
  flags, as in the `missing_arbitration` rule.  On the cleaned (hence
  newline-free) subject it matches — as the single match, the whole
  subject — exactly when no `wi` occurs in the subject (case-sensitive,
  since the rule's pattern carries no `i` flag). -/
inductive Pat where
  | alts (ci : Bool) (as : List (List (List Char)))
  | negLook (ws : List (List Char))
deriving DecidableEq

/-- `cleanText.match(pattern)` (legal-patterns.ts:89): `none` models the
`null` result.  For a `g`-flag regex the array holds every match; for
the flagless `negLook` pattern it holds the single full match (there are
no capture groups, so its length is 1). -/
def jsMatchList : Pat → List Char → Option (List (List Char))
  | .alts ci as, c =>
    let subj := if ci then c.map lowerC else c
    match gSpans as c subj with
    | [] => none
    | m :: ms => some (m :: ms)
  | .negLook ws, c =>
    if ws.all (fun w => !containsSub w c) then some [c] else none

/-- `matches[0].substring(0, 100) + (matches[0].length > 100 ? '...' : '')`
(legal-patterns.ts:95). -/
def mkExcerpt (m : List Char) : String :=
  String.mk (m.take 100) ++ (if m.length > 100 then "..." else "")

/-! ## Binary64 arithmetic -/

/-- Round a rational to an integer, round-to-nearest with ties to even. -/
def rhe (q : ℚ) : ℤ :=
  let f := ⌊q⌋
  let r := q - f
  if r < 1 / 2 then f
  else if 1 / 2 < r then f + 1
  else if f % 2 = 0 then f else f + 1

/-- Monotone walk towards the binade of `q`: starting from exponent `e`,
step down while `q < 2 ^ e` and up while `2 ^ (e + 1) ≤ q`, so that on
termination `2 ^ e ≤ q < 2 ^ (e + 1)`.  The walk moves one binade per
step, so any fuel of at least `|log2 q|` suffices; the fuel below covers
every exponent a finite binary64 computation can reach. -/
def expSearch (fuel : ℕ) (q : ℚ) (e : ℤ) : ℤ :=
  match fuel with
  | 0 => e
  | f + 1 =>
    if q < 2 ^ e then expSearch f q (e - 1)
    else if 2 ^ (e + 1) ≤ q then expSearch f q (e + 1)
    else e

/-- The binade of a positive rational: the greatest `e` with
`2 ^ e ≤ q`, for every `q` in the range of finite binary64 values (and
far beyond). -/
def binade (q : ℚ) : ℤ := expSearch 4200 q 0

/-- Round a positive rational to 53 significant bits (the binary64
significand), round-to-nearest, ties-to-even.  All values arising in the
analyzer are normal and nowhere near overflow or underflow, so this is
exactly IEEE 754 binary64 rounding for them. -/
def flPos (q : ℚ) : ℚ :=
  let e : ℤ := binade q - 52
  (rhe (q / 2 ^ e) : ℚ) * 2 ^ e

/-- Binary64 rounding of a rational (sign-symmetric, zero fixed). -/
def fl (q : ℚ) : ℚ :=
  if q = 0 then 0 else if q < 0 then -flPos (-q) else flPos q

/-- JavaScript `+` on numbers: exact rational sum, rounded to binary64. -/
def fadd (a b : ℚ) : ℚ := fl (a + b)

/-- The binary64 value denoted by a JavaScript decimal literal. -/
def dbl (q : ℚ) : ℚ := fl q

/-! ## The rule registry (legal-patterns.ts:27-78) -/

/-- Severity levels of a rule (`riskLevel` field). -/
inductive RiskLevel where
  | HIGH
  | MEDIUM
  | LOW
deriving DecidableEq

/-- A rule of the registry (interface `LegalPattern`,
legal-patterns.ts:4-13). -/
structure LegalPattern where
  id : String
  name : String
  pattern : Pat
  riskLevel : RiskLevel
  issue : String
  suggestion : String
  legalBasis : String
  category : String
deriving DecidableEq

/-- A detected issue: a rule plus occurrence count and excerpt
(interface `DetectedIssue`, legal-patterns.ts:15-18).  The source field
`matches` is rendered `matchCount` because `matches` is a reserved word
in Lean. -/
structure DetectedIssue extends LegalPattern where
  matchCount : Nat
  matchedText : String
deriving DecidableEq

/-- The analyzer's result (interface `AnalysisResult`,
legal-patterns.ts:20-24). -/
structure AnalysisResult where
  riskScore : ℚ
  issues : List DetectedIssue
  totalIssues : Nat
deriving DecidableEq

/-- Literal regex fragment. -/
def lit (s : String) : List Char := s.toList

/-- The five records of the rule registry `indianLegalPatterns`
(legal-patterns.ts:27-78) follow, each compiled regex rendered in the
`Pat` class:

* `unlimited_liability` (this rule, legal-patterns.ts:28-37):
  `/unlimited.*liability|liability.*unlimited|shall be liable for all|without limitation of liability/gi`
* `penalty_clause`:
  `/penalty|punitive damages|penalty of|shall pay.*penalty|penalty clause/gi`
* `foreign_jurisdiction`:
  `/governed by.*law.*(?:singapore|uk|us|new york|english|american|foreign)/gi`
  — the trailing non-capturing group is expanded into seven top-level
  alternatives, which defines the same set of matching subjects (the
  exact span JavaScript would report can differ, but nothing below
  depends on this rule's spans or counts)
* `missing_arbitration`:
  `/^(?!.*arbitration)(?!.*mediation)(?!.*dispute resolution)(?!.*courts?).*$/`
  — no flags; `.*courts?` occurs in the subject iff the bare word
  `court` does, so the deciding words are the four listed ones
* `unfair_termination`:
  `/terminate.*without.*notice|immediate termination|terminate.*at.*will|terminate.*without.*cause.*notice/gi`
-/
def unlimitedLiabilityRule : LegalPattern :=
  { id := "unlimited_liability"
    name := "Unlimited Liability Clause"
    pattern := .alts true [[lit "unlimited", lit "liability"],
                           [lit "liability", lit "unlimited"],
                           [lit "shall be liable for all"],
                           [lit "without limitation of liability"]]
    riskLevel := .HIGH
    issue := "Unlimited liability clauses can expose parties to excessive financial risk"
    suggestion := "Limit liability to contract value or specify maximum liability amount"
    legalBasis := "Section 73, Indian Contract Act 1872 - Compensation for loss or damage"
    category := "Liability" }

/-- The second registry rule (legal-patterns.ts:38-47). -/
def penaltyClauseRule : LegalPattern :=
  { id := "penalty_clause"
    name := "Penalty Clause (Unenforceable)"
    pattern := .alts true [[lit "penalty"],
                           [lit "punitive damages"],
                           [lit "penalty of"],
                           [lit "shall pay", lit "penalty"],
                           [lit "penalty clause"]]
    riskLevel := .HIGH
    issue := "Penalty clauses are unenforceable under Indian law - only liquidated damages allowed"
    suggestion := "Replace \"penalty\" with \"liquidated damages\" and ensure amount is reasonable estimate of actual loss"
    legalBasis := "Section 74, Indian Contract Act 1872 - Compensation for breach of contract"
    category := "Damages" }

/-- The third registry rule (legal-patterns.ts:48-57).  Note the
alternation names `english`, not `england`: the phrase
`governed by the laws of England` does not match. -/
def foreignJurisdictionRule : LegalPattern :=
  { id := "foreign_jurisdiction"
    name := "Foreign Governing Law"
    pattern := .alts true [[lit "governed by", lit "law", lit "singapore"],
                           [lit "governed by", lit "law", lit "uk"],
                           [lit "governed by", lit "law", lit "us"],
                           [lit "governed by", lit "law", lit "new york"],
                           [lit "governed by", lit "law", lit "english"],
                           [lit "governed by", lit "law", lit "american"],
                           [lit "governed by", lit "law", lit "foreign"]]
    riskLevel := .MEDIUM
    issue := "Foreign governing law may not be enforceable in Indian courts"
    suggestion := "Add Indian law as governing law or include dual jurisdiction clause"
    legalBasis := "Indian courts prefer Indian law for contracts with Indian parties"
    category := "Jurisdiction" }

/-- The fourth registry rule (legal-patterns.ts:58-67), whose pattern is
the flagless anchored negative lookahead: like every other rule it IS
tested by the main loop, where it matches exactly the cleaned texts that
contain none of its four words (case-sensitively). -/
def missingArbitrationRule : LegalPattern :=
  { id := "missing_arbitration"
    name := "No Dispute Resolution Mechanism"
    pattern := .negLook [lit "arbitration", lit "mediation",
                         lit "dispute resolution", lit "court"]
    riskLevel := .MEDIUM
    issue := "No clear dispute resolution mechanism specified"
    suggestion := "Add arbitration clause with seat in India under Arbitration Act 2015"
    legalBasis := "Arbitration and Conciliation Act, 2015"
    category := "Dispute Resolution" }

/-- The fifth registry rule (legal-patterns.ts:68-77). -/
def unfairTerminationRule : LegalPattern :=
  { id := "unfair_termination"
    name := "Unfair Termination Rights"
    pattern := .alts true [[lit "terminate", lit "without", lit "notice"],
                           [lit "immediate termination"],
                           [lit "terminate", lit "at", lit "will"],
                           [lit "terminate", lit "without", lit "cause", lit "notice"]]
    riskLevel := .MEDIUM
    issue := "Immediate termination without notice may be deemed unfair"
    suggestion := "Provide reasonable notice period (30-90 days) or payment in lieu of notice"
    legalBasis := "Indian Contract Act principles of reasonableness and fairness"
    category := "Termination" }

/-- The registry array itself, in definition order (legal-patterns.ts:27). -/
def indianLegalPatterns : List LegalPattern :=
  [unlimitedLiabilityRule, penaltyClauseRule, foreignJurisdictionRule,
   missingArbitrationRule, unfairTerminationRule]

/-! ## The analyzer (legal-patterns.ts:81-124) -/

/-- The cleaned text (legal-patterns.ts:86). -/
def cleanText (text : String) : List Char := collapseWS text.toList

/-- One iteration of the main loop (legal-patterns.ts:88-103) viewed as
a per-rule result: the issue pushed for rule `p` (with its match count
and first-match excerpt), or `none` when `cleanText.match` returns
`null` or an empty array. -/
def matchedOfPat (c : List Char) (p : LegalPattern) : Option DetectedIssue :=
  match jsMatchList p.pattern c with
  | some ms =>
    if ms.length > 0 then
      some { toLegalPattern := p, matchCount := ms.length, matchedText := mkExcerpt ms.headI }
    else none
  | none => none

/-- The issues pushed by the main loop, in registry order. -/
def loopIssues (c : List Char) : List DetectedIssue :=
  indianLegalPatterns.filterMap (matchedOfPat c)

/-- `pattern.riskLevel === 'HIGH' ? 0.25 : pattern.riskLevel === 'MEDIUM' ? 0.15 : 0.1`
(legal-patterns.ts:99-100), each literal as its binary64 value. -/
def riskWeight : RiskLevel → ℚ
  | .HIGH => dbl 0.25
  | .MEDIUM => dbl 0.15
  | .LOW => dbl 0.1

/-- The risk score accumulated by the main loop: starting from 0, each
matching rule's weight is added (binary64 addition) in registry order
(legal-patterns.ts:98-101). -/
def loopScore (c : List Char) : ℚ :=
  indianLegalPatterns.foldl
    (fun acc p =>
      if (matchedOfPat c p).isSome then fadd acc (riskWeight p.riskLevel) else acc)
    0

/-- `/arbitration|mediation|dispute resolution|jurisdiction.*court/gi`
(legal-patterns.ts:106), the second-pass scan. -/
def disputeResolutionScan : Pat :=
  .alts true [[lit "arbitration"], [lit "mediation"],
              [lit "dispute resolution"], [lit "jurisdiction", lit "court"]]

/-- `hasDisputeResolution` (legal-patterns.ts:106): whether the scan
regex matches anywhere in the cleaned text (`RegExp.prototype.test`; the
regex literal is freshly created each call, so `lastIndex` is 0). -/
def hasDisputeResolution (c : List Char) : Bool :=
  (jsMatchList disputeResolutionScan c).isSome

/-- The synthetic excerpt of the post-loop issue (legal-patterns.ts:113). -/
def missingArbSynthetic : String := "No dispute resolution mechanism found in document"

/-- The issue pushed by the post-loop check (legal-patterns.ts:105-117):
when the scan finds no dispute-resolution language, the registry rule
with id `missing_arbitration` is looked up (`find` can in principle
yield `undefined`, in which case nothing is pushed) and re-emitted with
`matches: 1` and the synthetic excerpt. -/
def postIssues (c : List Char) : List DetectedIssue :=
  if hasDisputeResolution c then []
  else
    match indianLegalPatterns.find? (fun p => p.id == "missing_arbitration") with
    | some p => [{ toLegalPattern := p, matchCount := 1, matchedText := missingArbSynthetic }]
    | none => []

/-- The accumulated risk score after the post-loop check, which adds the
literal `0.15` (legal-patterns.ts:115) inside the same guards that push
the post-loop issue. -/
def rawScore (c : List Char) : ℚ :=
  if hasDisputeResolution c then loopScore c
  else
    match indianLegalPatterns.find? (fun p => p.id == "missing_arbitration") with
    | some _ => fadd (loopScore c) (dbl 0.15)
    | none => loopScore c

/-- `analyzeDocument` (legal-patterns.ts:81-124): the main loop over the
registry, the inverse-logic post-check, and the final
`Math.min(riskScore, 1)` clamp. -/
def analyzeDocument (text : String) : AnalysisResult :=
  let c := cleanText text
  let issues := loopIssues c ++ postIssues c
  { riskScore := min (rawScore c) 1
    issues := issues
    totalIssues := issues.length }

/-! ## The analyzer with JavaScript's failure points made explicit

JavaScript can only fail at runtime here by a property access on
`undefined`.  The two candidate spots are `matches[0]` inside the main
loop (guarded by `matches && matches.length > 0`) and the `find` for the
post-loop rule (guarded by `if (missingArbitration)`).  The `Except`
variants below model those accesses as fallible and are proved to agree
with the total model on every input. -/

/-- One main-loop iteration with the `matches[0]` access modelled as a
fallible index lookup. -/
def matchedOfPatE (c : List Char) (p : LegalPattern) :
    Except String (Option DetectedIssue) :=
  match jsMatchList p.pattern c with
  | some ms =>
    if ms.length > 0 then
      match ms.get? 0 with
      | some m0 =>
        .ok (some { toLegalPattern := p, matchCount := ms.length,
                    matchedText := mkExcerpt m0 })
      | none => .error "TypeError: cannot read properties of undefined"
    else .ok none
  | none => .ok none

/-- The main loop (legal-patterns.ts:88-103) with fallible iterations,
accumulating the pushed issues in order. -/
def loopIssuesE (c : List Char) : Except String (List DetectedIssue) :=
  indianLegalPatterns.foldlM
    (fun acc p => do
      match ← matchedOfPatE c p with
      | some i => pure (acc ++ [i])
      | none => pure acc)
    []

/-- `analyzeDocument` with the failure points modelled: returns
`Except.error` if any guarded access could blow up, and otherwise the
same result as the total model. -/
def analyzeDocumentE (text : String) : Except String AnalysisResult := do
  let c := cleanText text
  let li ← loopIssuesE c
  let issues := li ++ postIssues c
  pure { riskScore := min (rawScore c) 1
         issues := issues
         totalIssues := issues.length }

/-! ## The accumulated score as a function of the per-rule outcomes -/

/-- The risk-score accumulation of one `analyzeDocument` run as a
function of the six Boolean outcomes that determine it: whether each of
the five registry rules matched in the main loop (`b1` .. `b5` in
registry order) and whether the post-loop branch fired (`bp`, i.e. the
dispute-resolution scan found nothing).  Mirrors the exact order of the
binary64 additions in legal-patterns.ts:83-117. -/
def chainScore (b1 b2 b3 b4 b5 bp : Bool) : ℚ :=
  let s0 : ℚ := 0
  let s1 := if b1 then fadd s0 (dbl 0.25) else s0
  let s2 := if b2 then fadd s1 (dbl 0.25) else s1
  let s3 := if b3 then fadd s2 (dbl 0.15) else s2
  let s4 := if b4 then fadd s3 (dbl 0.15) else s3
  let s5 := if b5 then fadd s4 (dbl 0.15) else s4
  if bp then fadd s5 (dbl 0.15) else s5

/-- The ids of the registry rules in definition order. -/
def registryIds : List String :=
  indianLegalPatterns.map (fun p => p.id)

/-- The position of a rule id in the registry (`5` for a foreign id). -/
def regIndex (s : String) : ℕ := registryIds.indexOf s

/-! ## Lemmas about the matching primitives -/

theorem isPrefixOf_nil_eq (p : List Char) : p.isPrefixOf ([] : List Char) = p.isEmpty := by
  cases p <;> rfl

theorem containsSub_iff (p : List Char) :
    ∀ s, containsSub p s = true ↔ ∃ n, p.isPrefixOf (s.drop n) = true := by
  intro s
  induction s with
  | nil =>
    simp [containsSub, isPrefixOf_nil_eq, List.isEmpty_iff]
  | cons c cs ih =>
    simp only [containsSub, Bool.or_eq_true, ih]
    constructor
    · rintro (h | ⟨n, hn⟩)
      · exact ⟨0, h⟩
      · exact ⟨n + 1, hn⟩
    · rintro ⟨n, hn⟩
      match n with
      | 0 => exact Or.inl hn
      | m + 1 => exact Or.inr ⟨m, hn⟩

theorem isPrefixOf_append (p u w : List Char) (h : p.isPrefixOf u = true) :
    p.isPrefixOf (u ++ w) = true := by
  rw [List.isPrefixOf_iff_prefix] at h ⊢
  exact h.trans (List.prefix_append u w)

theorem isPrefixOf_of_append (p u w : List Char) (hlen : p.length ≤ u.length)
    (h : p.isPrefixOf (u ++ w) = true) : p.isPrefixOf u = true := by
  rw [List.isPrefixOf_iff_prefix] at h ⊢
  have h2 : p = (u ++ w).take p.length := List.prefix_iff_eq_take.mp h
  rw [List.take_append_of_le_length hlen] at h2
  nth_rewrite 1 [h2]
  exact List.take_prefix p.length u

theorem splitAfter_cons_pos {p : List Char} {c : Char} {cs : List Char}
    (h : p.isPrefixOf (c :: cs) = true) :
    splitAfter p (c :: cs) = some ((c :: cs).drop p.length) := by
  simp only [splitAfter]
  rw [if_pos h]

theorem splitAfter_cons_neg {p : List Char} {c : Char} {cs : List Char}
    (h : ¬p.isPrefixOf (c :: cs) = true) :
    splitAfter p (c :: cs) = splitAfter p cs := by
  simp only [splitAfter]
  rw [if_neg h]

theorem splitAfter_some_length (p : List Char) :
    ∀ u u', splitAfter p u = some u' → p.length + u'.length ≤ u.length := by
  intro u
  induction u with
  | nil =>
    intro u' h
    simp only [splitAfter] at h
    by_cases he : p.isEmpty = true
    · rw [if_pos he] at h
      cases h
      have hp : p = [] := List.isEmpty_iff.mp he
      subst hp
      simp

    · rw [if_neg he] at h
      cases h
  | cons c cs ih =>
    intro u' h
    simp only [splitAfter] at h
    by_cases hp : p.isPrefixOf (c :: cs) = true
    · rw [if_pos hp] at h
      have hle := (List.isPrefixOf_iff_prefix.mp hp).length_le
      cases h
      simp only [List.length_drop]
      omega
    · rw [if_neg hp] at h
      have := ih u' h
      simp only [List.length_cons]
      omega

theorem splitAfter_append (p w : List Char) :
    ∀ u u', splitAfter p u = some u' → splitAfter p (u ++ w) = some (u' ++ w) := by
  intro u
  induction u with
  | nil =>
    intro u' h
    simp only [splitAfter] at h
    by_cases he : p.isEmpty = true
    · rw [if_pos he] at h
      cases h
      have hp : p = [] := List.isEmpty_iff.mp he
      subst hp
      cases w with
      | nil => simp [splitAfter]
      | cons d ds => simp [splitAfter, List.isPrefixOf]
    · rw [if_neg he] at h
      cases h
  | cons c cs ih =>
    intro u' h
    simp only [splitAfter] at h
    by_cases hp : p.isPrefixOf (c :: cs) = true
    · rw [if_pos hp] at h
      cases h
      have hle := (List.isPrefixOf_iff_prefix.mp hp).length_le
      have hp2 : p.isPrefixOf (c :: (cs ++ w)) = true := by
        have := isPrefixOf_append p (c :: cs) w hp
        rwa [List.cons_append] at this
      rw [List.cons_append, splitAfter_cons_pos hp2, ← List.cons_append,
        List.drop_append_of_le_length hle]
    · rw [if_neg hp] at h
      have hlen : p.length ≤ cs.length := by
        have := splitAfter_some_length p cs u' h
        omega
      have hp2 : ¬p.isPrefixOf (c :: (cs ++ w)) = true := by
        intro hcon
        have hcon2 : p.isPrefixOf ((c :: cs) ++ w) = true := by
          rwa [List.cons_append]
        exact hp (isPrefixOf_of_append p (c :: cs) w
          (by simpa using Nat.le_succ_of_le hlen) hcon2)
      rw [List.cons_append, splitAfter_cons_neg hp2]
      exact ih u' h

theorem containsSeq_append (w : List Char) :
    ∀ ps u, containsSeq ps u = true → containsSeq ps (u ++ w) = true := by
  intro ps
  induction ps with
  | nil => intro u _; rfl
  | cons p ps ih =>
    intro u h
    simp only [containsSeq] at h ⊢
    rcases hs : splitAfter p u with _ | rest
    · rw [hs] at h; cases h
    · rw [hs] at h
      rw [splitAfter_append p w u rest hs]
      exact ih rest h

theorem splitAfter_suffix (p : List Char) :
    ∀ u r, splitAfter p u = some r → r <:+ u := by
  intro u
  induction u with
  | nil =>
    intro r h
    simp only [splitAfter] at h
    by_cases he : p.isEmpty = true
    · rw [if_pos he] at h
      cases h
      exact List.nil_suffix
    · rw [if_neg he] at h
      cases h
  | cons c cs ih =>
    intro r h
    simp only [splitAfter] at h
    by_cases hp : p.isPrefixOf (c :: cs) = true
    · rw [if_pos hp] at h
      cases h
      exact List.drop_suffix p.length (c :: cs)
    · rw [if_neg hp] at h
      exact (ih r h).trans (List.suffix_cons c cs)

theorem splitAfter_prepend (p : List Char) :
    ∀ x u r, splitAfter p u = some r →
      ∃ r', splitAfter p (x ++ u) = some r' ∧ r <:+ r' := by
  intro x
  induction x with
  | nil =>
    intro u r h
    exact ⟨r, h, List.suffix_refl r⟩
  | cons c x' ih =>
    intro u r h
    rcases ih u r h with ⟨r', hr', hsuf⟩
    by_cases hp : p.isPrefixOf (c :: (x' ++ u)) = true
    · refine ⟨(c :: (x' ++ u)).drop p.length, ?_, ?_⟩
      · rw [List.cons_append, splitAfter_cons_pos hp]
      · have h1 : r <:+ u := splitAfter_suffix p u r h
        have h2 : u <:+ c :: (x' ++ u) := (List.suffix_append x' u).trans (List.suffix_cons c _)
        have h3 : (c :: (x' ++ u)).drop p.length <:+ c :: (x' ++ u) :=
          List.drop_suffix p.length (c :: (x' ++ u))
        apply List.suffix_of_suffix_length_le (h1.trans h2) h3
        have hlen1 : p.length + r.length ≤ u.length := splitAfter_some_length p u r h
        have hlenp := (List.isPrefixOf_iff_prefix.mp hp).length_le
        simp only [List.length_drop, List.length_cons, List.length_append] at *
        omega
    · refine ⟨r', ?_, hsuf⟩
      rw [List.cons_append, splitAfter_cons_neg hp]
      exact hr'

theorem containsSeq_of_suffix :
    ∀ ps u v, u <:+ v → containsSeq ps u = true → containsSeq ps v = true := by
  intro ps
  induction ps with
  | nil => intro u v _ _; rfl
  | cons p ps ih =>
    intro u v huv h
    simp only [containsSeq] at h ⊢
    rcases hs : splitAfter p u with _ | rest
    · rw [hs] at h; cases h
    · rw [hs] at h
      rcases huv with ⟨x, rfl⟩
      rcases splitAfter_prepend p x u rest hs with ⟨r', hr', hsuf⟩
      rw [hr']
      exact ih rest r' hsuf h

theorem splitAfter_eq_some_exists (p : List Char) :
    ∀ u r, splitAfter p u = some r →
      ∃ n, p.isPrefixOf (u.drop n) = true ∧ r = u.drop (n + p.length) := by
  intro u
  induction u with
  | nil =>
    intro r h
    simp only [splitAfter] at h
    by_cases he : p.isEmpty = true
    · rw [if_pos he] at h
      cases h
      have hp : p = [] := List.isEmpty_iff.mp he
      subst hp
      exact ⟨0, rfl, rfl⟩
    · rw [if_neg he] at h
      cases h
  | cons c cs ih =>
    intro r h
    by_cases hp : p.isPrefixOf (c :: cs) = true
    · rw [splitAfter_cons_pos hp] at h
      cases h
      exact ⟨0, by simpa using hp, by simp⟩
    · rw [splitAfter_cons_neg hp] at h
      rcases ih r h with ⟨n, hn, hr⟩
      refine ⟨n + 1, by simpa using hn, ?_⟩
      rw [show n + 1 + p.length = (n + p.length) + 1 by omega]
      simpa using hr

theorem splitAfter_of_isPrefixOf {p u : List Char} (h : p.isPrefixOf u = true) :
    splitAfter p u = some (u.drop p.length) := by
  cases u with
  | nil =>
    have : p = [] := by
      cases p with
      | nil => rfl
      | cons a as => simp [List.isPrefixOf] at h
    subst this
    rfl
  | cons c cs => exact splitAfter_cons_pos h

theorem containsSeq_cons_iff (p : List Char) (ps : List (List Char)) (s : List Char) :
    containsSeq (p :: ps) s = true ↔
      ∃ n, p.isPrefixOf (s.drop n) = true ∧ containsSeq ps (s.drop (n + p.length)) = true := by
  constructor
  · intro h
    simp only [containsSeq] at h
    rcases hs : splitAfter p s with _ | rest
    · rw [hs] at h; cases h
    · rw [hs] at h
      rcases splitAfter_eq_some_exists p s rest hs with ⟨n, hn, hr⟩
      exact ⟨n, hn, hr ▸ h⟩
  · rintro ⟨n, hn, hseq⟩
    have h1 : splitAfter p (s.drop n) = some ((s.drop n).drop p.length) :=
      splitAfter_of_isPrefixOf hn
    rw [List.drop_drop] at h1
    rcases splitAfter_prepend p (s.take n) (s.drop n) _ h1 with ⟨r', hr', hsuf⟩
    rw [List.take_append_drop] at hr'
    simp only [containsSeq, hr']
    exact containsSeq_of_suffix ps _ r' hsuf hseq

theorem isSome_map (o : Option Nat) (f : Nat → Nat) : (o.map f).isSome = o.isSome := by
  cases o <;> rfl

theorem lastOccEnd_isSome_iff (w s : List Char) :
    (lastOccEnd w s).isSome = true ↔ ∃ n, w.isPrefixOf (s.drop n) = true := by
  unfold lastOccEnd
  rw [isSome_map, List.getLast?_isSome]
  constructor
  · intro hne
    rcases List.exists_mem_of_ne_nil _ hne with ⟨i, hi⟩
    rw [List.mem_filter] at hi
    exact ⟨i, hi.2⟩
  · rintro ⟨n, hn⟩ hnil
    rw [List.filter_eq_nil_iff] at hnil
    by_cases hns : n ≤ s.length
    · exact hnil n (by simpa [List.mem_range] using Nat.lt_succ_of_le hns) hn
    · have hd : s.drop n = [] := List.drop_eq_nil_of_le (by omega)
      rw [hd, isPrefixOf_nil_eq] at hn
      have hw : w = [] := List.isEmpty_iff.mp hn
      subst hw
      refine hnil 0 (by simp) ?_
      cases s <;> simp [List.isPrefixOf]

theorem getLastD_ne_nil {ws : List (List Char)} (h : ws ≠ []) (x y : List Char) :
    ws.getLastD x = ws.getLastD y := by
  cases ws with
  | nil => exact absurd rfl h
  | cons a l => rw [List.getLastD_cons, List.getLastD_cons]

theorem containsSeq_last_occurs :
    ∀ (ws : List (List Char)), ws ≠ [] → ∀ rest, containsSeq ws rest = true →
      ∃ n, (ws.getLastD []).isPrefixOf (rest.drop n) = true := by
  intro ws
  induction ws with
  | nil => intro h; exact absurd rfl h
  | cons w ws ih =>
    intro _ rest h
    rw [containsSeq_cons_iff] at h
    rcases h with ⟨n, hn, hseq⟩
    cases ws with
    | nil => exact ⟨n, by simpa [List.getLastD_cons] using hn⟩
    | cons w2 ws2 =>
      rcases ih (by simp) _ hseq with ⟨m, hm⟩
      refine ⟨n + w.length + m, ?_⟩
      have hlast : (w :: w2 :: ws2).getLastD [] = (w2 :: ws2).getLastD [] := by
        rw [List.getLastD_cons]
        exact getLastD_ne_nil (by simp) w []
      rw [hlast, show n + w.length + m = n + w.length + m from rfl,
        ← List.drop_drop m (n + w.length) rest]
      exact hm

theorem greedyMatchLen_single_isSome (w s : List Char) :
    (greedyMatchLen [w] s).isSome = w.isPrefixOf s := by
  simp only [greedyMatchLen]
  by_cases h : w.isPrefixOf s = true <;> simp [h]

theorem greedyMatchLen_cons_isSome (w w2 : List Char) (ws : List (List Char)) (s : List Char) :
    (greedyMatchLen (w :: w2 :: ws) s).isSome =
      (w.isPrefixOf s && containsSeq (w2 :: ws) (s.drop w.length)) := by
  simp only [greedyMatchLen]
  by_cases h : (w.isPrefixOf s && containsSeq (w2 :: ws) (s.drop w.length)) = true
  · rw [if_pos h, h, isSome_map]
    rcases Bool.and_eq_true _ _ |>.mp h with ⟨_, h2⟩
    exact (lastOccEnd_isSome_iff _ _).mpr (containsSeq_last_occurs (w2 :: ws) (by simp) _ h2)
  · rw [if_neg h]
    simp only [Option.isSome_none]
    exact (Bool.not_eq_true _).mp (fun hc => h hc) |>.symm

theorem greedyMatchLen_append_isSome (a : List (List Char)) (u w : List Char)
    (h : (greedyMatchLen a u).isSome = true) : (greedyMatchLen a (u ++ w)).isSome = true := by
  match a with
  | [] => rfl
  | [l] =>
    rw [greedyMatchLen_single_isSome] at h ⊢
    exact isPrefixOf_append l u w h
  | l :: l2 :: ls =>
    rw [greedyMatchLen_cons_isSome] at h ⊢
    rcases Bool.and_eq_true _ _ |>.mp h with ⟨h1, h2⟩
    have hlen := (List.isPrefixOf_iff_prefix.mp h1).length_le
    have h1' := isPrefixOf_append l u w h1
    have h2' : containsSeq (l2 :: ls) ((u ++ w).drop l.length) = true := by
      rw [List.drop_append_of_le_length hlen]
      exact containsSeq_append w _ _ h2
    rw [h1', h2']
    rfl

theorem gSpans_ne_nil_iff (as : List (List (List Char))) :
    ∀ subj orig, gSpans as orig subj ≠ [] ↔
      ∃ n, (as.findSome? (fun a => greedyMatchLen a (subj.drop n))).isSome = true := by
  intro subj
  induction subj with
  | nil =>
    intro orig
    simp only [gSpans]
    rcases hf : as.findSome? (fun a => greedyMatchLen a ([] : List Char)) with _ | len
    · simp only [hf]
      constructor
      · intro h; exact absurd rfl h
      · rintro ⟨n, hn⟩
        rw [List.drop_nil, hf] at hn
        cases hn
    · simp only [hf]
      constructor
      · intro _
        exact ⟨0, by rw [List.drop_nil, hf]; rfl⟩
      · intro _
        simp
  | cons s tail ih =>
    intro orig
    simp only [gSpans]
    rcases hf : as.findSome? (fun a => greedyMatchLen a (s :: tail)) with _ | len
    · simp only [hf]
      rw [ih (orig.drop 1)]
      constructor
      · rintro ⟨n, hn⟩
        exact ⟨n + 1, by simpa using hn⟩
      · rintro ⟨n, hn⟩
        match n with
        | 0 =>
          rw [List.drop_zero, hf] at hn
          cases hn
        | m + 1 => exact ⟨m, by simpa using hn⟩
    · simp only [hf]
      constructor
      · intro _
        exact ⟨0, by rw [List.drop_zero, hf]; rfl⟩
      · intro _
        simp

theorem jsMatchList_alts_isSome_iff (ci : Bool) (as : List (List (List Char))) (c : List Char) :
    (jsMatchList (.alts ci as) c).isSome = true ↔
      ∃ n, (as.findSome? (fun a =>
        greedyMatchLen a ((if ci then c.map lowerC else c).drop n))).isSome = true := by
  have h1 : (jsMatchList (.alts ci as) c).isSome = true ↔
      gSpans as c (if ci then c.map lowerC else c) ≠ [] := by
    simp only [jsMatchList]
    rcases hg : gSpans as c (if ci then c.map lowerC else c) with _ | ⟨m, ms⟩
    · simp
    · simp
  rw [h1, gSpans_ne_nil_iff]

theorem jsMatchList_alts_append (ci : Bool) (as : List (List (List Char))) (u w : List Char)
    (h : (jsMatchList (.alts ci as) u).isSome = true) :
    (jsMatchList (.alts ci as) (u ++ w)).isSome = true := by
  rw [jsMatchList_alts_isSome_iff] at h ⊢
  rcases h with ⟨n, hn⟩
  rw [List.findSome?_isSome_iff] at hn
  rcases hn with ⟨a, ha, hga⟩
  have hsubj : (if ci then (u ++ w).map lowerC else u ++ w) =
      (if ci then u.map lowerC else u) ++ (if ci then w.map lowerC else w) := by
    cases ci <;> simp
  by_cases hns : n ≤ (if ci then u.map lowerC else u).length
  · refine ⟨n, ?_⟩
    rw [List.findSome?_isSome_iff]
    refine ⟨a, ha, ?_⟩
    rw [hsubj, List.drop_append_of_le_length hns]
    exact greedyMatchLen_append_isSome a _ _ hga
  · have hd : (if ci then u.map lowerC else u).drop n = [] :=
      List.drop_eq_nil_of_le (by omega)
    refine ⟨(if ci then (u ++ w).map lowerC else u ++ w).length, ?_⟩
    rw [List.findSome?_isSome_iff]
    refine ⟨a, ha, ?_⟩
    rw [List.drop_eq_nil_of_le (le_refl _)]
    rw [hd] at hga
    exact hga

/-! ## Lemmas about whitespace collapsing -/

theorem collapseWS_ws_head (c : Char) (hc : isJsWS c = true) :
    ∀ xs, ∃ tl, collapseWS (c :: xs) = ' ' :: tl := by
  intro xs
  induction xs generalizing c with
  | nil => exact ⟨[], by simp [collapseWS, hc]⟩
  | cons d ds ih =>
    by_cases hd : isJsWS d = true
    · rcases ih d hd with ⟨tl, htl⟩
      exact ⟨tl, by simp only [collapseWS, hc, hd, Bool.and_self, if_pos]; exact htl⟩
    · refine ⟨collapseWS (d :: ds), ?_⟩
      simp only [collapseWS, hc, hd, Bool.and_false, Bool.false_eq_true, if_false, if_pos]

theorem collapseWS_cons_cons (c d : Char) (cs : List Char) :
    collapseWS (c :: d :: cs) =
      if isJsWS c && isJsWS d then collapseWS (d :: cs)
      else (if isJsWS c then ' ' else c) :: collapseWS (d :: cs) := rfl

theorem collapseWS_prefix : ∀ s r : List Char, collapseWS s <+: collapseWS (s ++ r)
  | [], r => by
    show ([] : List Char) <+: collapseWS r
    exact List.nil_prefix
  | [c], r => by
    cases r with
    | nil => simp
    | cons e r' =>
      by_cases hc : isJsWS c = true
      · by_cases he : isJsWS e = true
        · have hstep : collapseWS ([c] ++ e :: r') = collapseWS (e :: r') := by
            simp only [List.cons_append, List.nil_append, collapseWS, hc, he, Bool.and_self,
              if_pos]
          rw [hstep]
          rcases collapseWS_ws_head e he r' with ⟨tl, htl⟩
          rw [htl]
          simp [collapseWS, hc]
        · have hstep : collapseWS ([c] ++ e :: r') = ' ' :: collapseWS (e :: r') := by
            simp only [List.cons_append, List.nil_append, collapseWS, hc, he, Bool.and_false,
              Bool.false_eq_true, if_false, if_pos]
          rw [hstep]
          simp [collapseWS, hc]
      · have hstep : collapseWS ([c] ++ e :: r') = c :: collapseWS (e :: r') := by
          simp only [List.cons_append, List.nil_append, collapseWS, hc, Bool.false_and,
            Bool.false_eq_true, if_false, if_neg]
        rw [hstep]
        simp [collapseWS, hc]
  | c :: d :: cs, r => by
    have ih : collapseWS (d :: cs) <+: collapseWS (d :: (cs ++ r)) :=
      collapseWS_prefix (d :: cs) r
    have h1 := collapseWS_cons_cons c d cs
    have h2 : collapseWS ((c :: d :: cs) ++ r) =
        if isJsWS c && isJsWS d then collapseWS (d :: (cs ++ r))
        else (if isJsWS c then ' ' else c) :: collapseWS (d :: (cs ++ r)) :=
      collapseWS_cons_cons c d (cs ++ r)
    by_cases hcd : (isJsWS c && isJsWS d) = true
    · rw [h1, h2, if_pos hcd, if_pos hcd]
      exact ih
    · rw [h1, h2, if_neg hcd, if_neg hcd]
      exact List.cons_prefix_cons.mpr ⟨rfl, ih⟩

/-! ## Lemmas about the analyzer -/

theorem matchedOfPat_eq_some {c : List Char} {p : LegalPattern} {i : DetectedIssue}
    (h : matchedOfPat c p = some i) : i.toLegalPattern = p := by
  unfold matchedOfPat at h
  rcases hm : jsMatchList p.pattern c with _ | ms
  · simp [hm] at h
  · simp only [hm] at h
    by_cases hl : ms.length > 0
    · rw [if_pos hl] at h
      cases h
      rfl
    · rw [if_neg hl] at h
      cases h

theorem matchedOfPat_negLook (c : List Char) (p : LegalPattern) (ws : List (List Char))
    (hp : p.pattern = .negLook ws) :
    (matchedOfPat c p).isSome = ws.all (fun w => !containsSub w c) := by
  unfold matchedOfPat
  rw [hp]
  simp only [jsMatchList]
  by_cases h : ws.all (fun w => !containsSub w c) = true
  · rw [if_pos h, h]
    rfl
  · rw [if_neg h]
    simp only [Option.isSome_none]
    exact ((Bool.not_eq_true _).mp fun hc => h hc).symm

theorem matchedOfPat_alts_isSome (c : List Char) (p : LegalPattern) {ci : Bool}
    {as : List (List (List Char))} (hp : p.pattern = .alts ci as) :
    (matchedOfPat c p).isSome = (jsMatchList p.pattern c).isSome := by
  unfold matchedOfPat
  rcases hm : jsMatchList p.pattern c with _ | ms
  · rfl
  · have hne : ms ≠ [] := by
      rw [hp] at hm
      unfold jsMatchList at hm
      rcases hg : gSpans as c (if ci then c.map lowerC else c) with _ | ⟨m, ms'⟩
      · simp [hg] at hm
      · simp only [hg] at hm
        cases hm
        simp
    have hl : ms.length > 0 := List.length_pos.mpr hne
    simp [hl]

theorem find?_missingArbitration :
    indianLegalPatterns.find? (fun p => p.id == "missing_arbitration") =
      some missingArbitrationRule := by
  rfl

theorem postIssues_eq (c : List Char) :
    postIssues c =
      if hasDisputeResolution c then []
      else [{ toLegalPattern := missingArbitrationRule, matchCount := 1,
              matchedText := missingArbSynthetic }] := by
  unfold postIssues
  rw [find?_missingArbitration]

theorem rawScore_eq (c : List Char) :
    rawScore c =
      if hasDisputeResolution c then loopScore c
      else fadd (loopScore c) (dbl 0.15) := by
  unfold rawScore
  rw [find?_missingArbitration]

theorem analyzeDocument_issues (t : String) :
    (analyzeDocument t).issues = loopIssues (cleanText t) ++ postIssues (cleanText t) := rfl

theorem analyzeDocument_riskScore (t : String) :
    (analyzeDocument t).riskScore = min (rawScore (cleanText t)) 1 := rfl

theorem analyzeDocument_totalIssues (t : String) :
    (analyzeDocument t).totalIssues = (analyzeDocument t).issues.length := rfl

theorem chainScore_true (b1 b2 b3 b4 b5 : Bool) :
    chainScore b1 b2 b3 b4 b5 true =
      fadd (chainScore b1 b2 b3 b4 b5 false) (dbl 0.15) := rfl

theorem loopScore_eq_chain (c : List Char) :
    loopScore c =
      chainScore (matchedOfPat c unlimitedLiabilityRule).isSome
        (matchedOfPat c penaltyClauseRule).isSome
        (matchedOfPat c foreignJurisdictionRule).isSome
        (matchedOfPat c missingArbitrationRule).isSome
        (matchedOfPat c unfairTerminationRule).isSome
        false := by
  unfold loopScore indianLegalPatterns chainScore
  simp only [List.foldl_cons, List.foldl_nil]
  cases h1 : (matchedOfPat c unlimitedLiabilityRule).isSome <;>
    cases h2 : (matchedOfPat c penaltyClauseRule).isSome <;>
      cases h3 : (matchedOfPat c foreignJurisdictionRule).isSome <;>
        cases h4 : (matchedOfPat c missingArbitrationRule).isSome <;>
          cases h5 : (matchedOfPat c unfairTerminationRule).isSome <;>
            simp [h1, h2, h3, h4, h5, unlimitedLiabilityRule, penaltyClauseRule,
              foreignJurisdictionRule, missingArbitrationRule, unfairTerminationRule,
              riskWeight]

theorem rawScore_eq_chain (c : List Char) :
    rawScore c =
      chainScore (matchedOfPat c unlimitedLiabilityRule).isSome
        (matchedOfPat c penaltyClauseRule).isSome
        (matchedOfPat c foreignJurisdictionRule).isSome
        (matchedOfPat c missingArbitrationRule).isSome
        (matchedOfPat c unfairTerminationRule).isSome
        (!hasDisputeResolution c) := by
  rw [rawScore_eq, loopScore_eq_chain]
  cases hdr : hasDisputeResolution c
  · rw [if_neg (by simp), Bool.not_false, chainScore_true]
  · rw [if_pos rfl, Bool.not_true]

theorem countP_filterMap {α β : Type} (f : α → Option β) (q : β → Bool) (p : α → Bool)
    (h : ∀ a b, f a = some b → q b = p a) :
    ∀ l : List α, (l.filterMap f).countP q =
      l.countP (fun a => (f a).isSome && p a) := by
  intro l
  induction l with
  | nil => rfl
  | cons a l ih =>
    rcases hfa : f a with _ | b
    · rw [List.filterMap_cons_none hfa, List.countP_cons]
      simp [hfa, ih]
    · rw [List.filterMap_cons_some hfa, List.countP_cons, List.countP_cons]
      simp [hfa, h a b hfa, ih]

theorem loopIssues_countP (c : List Char) (r : String) :
    (loopIssues c).countP (fun i => i.id == r) =
      indianLegalPatterns.countP (fun p => (matchedOfPat c p).isSome && (p.id == r)) := by
  unfold loopIssues
  refine countP_filterMap _ _ _ ?_ _
  intro a b hb
  show (b.toLegalPattern.id == r) = (a.id == r)
  rw [matchedOfPat_eq_some hb]

theorem map_filterMap_sublist {α β γ : Type} (f : α → Option β) (g : β → γ) (h : α → γ)
    (hfg : ∀ a b, f a = some b → g b = h a) :
    ∀ l : List α, ((l.filterMap f).map g).Sublist (l.map h) := by
  intro l
  induction l with
  | nil => exact List.Sublist.refl []
  | cons a l ih =>
    rcases hfa : f a with _ | b
    · rw [List.filterMap_cons_none hfa, List.map_cons]
      exact ih.trans (List.sublist_cons_self (h a) (l.map h))
    · rw [List.filterMap_cons_some hfa, List.map_cons, List.map_cons, hfg a b hfa]
      exact ih.cons₂ (h a)

theorem chainScore_mono :
    ∀ b1 b1' b2 b2' b3 b3' b5 b5' b4 bp : Bool,
      (b1 = true → b1' = true) → (b2 = true → b2' = true) →
      (b3 = true → b3' = true) → (b5 = true → b5' = true) →
      chainScore b1 b2 b3 b4 b5 bp ≤ chainScore b1' b2' b3' b4 b5' bp := by
  decide!

theorem chainScore_nonneg : ∀ b1 b2 b3 b4 b5 bp : Bool,
    0 ≤ chainScore b1 b2 b3 b4 b5 bp := by
  decide!

theorem cleanText_append_prefix (t p : String) :
    ∃ w, cleanText (t ++ p) = cleanText t ++ w := by
  have hdata : (t ++ p).toList = t.toList ++ p.toList := by
    cases t
    cases p
    rfl
  unfold cleanText
  rw [hdata]
  rcases collapseWS_prefix t.toList p.toList with ⟨w, hw⟩
  exact ⟨w, hw.symm⟩

theorem matchedOfPat_alts_mono (p : LegalPattern) {ci : Bool} {as : List (List (List Char))}
    (hp : p.pattern = .alts ci as) (u w : List Char)
    (h : (matchedOfPat u p).isSome = true) :
    (matchedOfPat (u ++ w) p).isSome = true := by
  rw [matchedOfPat_alts_isSome _ p hp] at h ⊢
  rw [hp] at h ⊢
  exact jsMatchList_alts_append ci as u w h

theorem containsSub_map_lower (w c : List Char) (h : containsSub w c = true) :
    containsSub (w.map lowerC) (c.map lowerC) = true := by
  rw [containsSub_iff] at h ⊢
  rcases h with ⟨n, hn⟩
  refine ⟨n, ?_⟩
  rw [← List.map_drop]
  rw [List.isPrefixOf_iff_prefix] at hn ⊢
  exact hn.map lowerC

theorem matchedOfPatE_ok (c : List Char) (p : LegalPattern) :
    matchedOfPatE c p = .ok (matchedOfPat c p) := by
  unfold matchedOfPatE matchedOfPat
  rcases hm : jsMatchList p.pattern c with _ | ms
  · simp only [hm]
  · simp only [hm]
    cases ms with
    | nil => rfl
    | cons m ms' =>
      have hl : (m :: ms').length > 0 := by simp
      rw [if_pos hl, if_pos hl]
      rfl

theorem loopIssuesE_ok (c : List Char) :
    loopIssuesE c = .ok (loopIssues c) := by
  unfold loopIssuesE loopIssues
  have hgen : ∀ (l : List LegalPattern) (acc : List DetectedIssue),
      l.foldlM (m := Except String)
        (fun acc p => do
          match ← matchedOfPatE c p with
          | some i => pure (acc ++ [i])
          | none => pure acc) acc = .ok (acc ++ l.filterMap (matchedOfPat c)) := by
    intro l
    induction l with
    | nil =>
      intro acc
      simp only [List.foldlM_nil, List.filterMap_nil, List.append_nil]
      rfl
    | cons p l ih =>
      intro acc
      rw [List.foldlM_cons, matchedOfPatE_ok]
      rcases hm : matchedOfPat c p with _ | i
      · rw [List.filterMap_cons_none hm]
        simpa using ih acc
      · rw [List.filterMap_cons_some hm]
        have := ih (acc ++ [i])
        simpa using this
  simpa using hgen indianLegalPatterns []

theorem postIssues_countP (c : List Char) (r : String) :
    (postIssues c).countP (fun i => i.id == r) =
      if hasDisputeResolution c then 0
      else if "missing_arbitration" == r then 1 else 0 := by
  rw [postIssues_eq]
  cases hdr : hasDisputeResolution c
  · simp only [Bool.false_eq_true, if_false]
    rw [List.countP_cons, List.countP_nil]
    show (0 + if (missingArbitrationRule.id == r) = true then 1 else 0) =
      if "missing_arbitration" == r then 1 else 0
    simp [missingArbitrationRule]
  · simp

theorem registry_countP_matched_le (c : List Char) (r : String) :
    indianLegalPatterns.countP (fun p => (matchedOfPat c p).isSome && (p.id == r)) ≤
      indianLegalPatterns.countP (fun p => p.id == r) := by
  apply List.countP_mono_left
  intro a _ ha
  exact (Bool.and_eq_true _ _ |>.mp ha).2

theorem map_filterMap_eq_map_filter {α β γ : Type} (f : α → Option β) (g : β → γ) (h : α → γ)
    (hfg : ∀ a b, f a = some b → g b = h a) :
    ∀ l : List α, (l.filterMap f).map g = (l.filter (fun a => (f a).isSome)).map h := by
  intro l
  induction l with
  | nil => rfl
  | cons a l ih =>
    rcases hfa : f a with _ | b
    · rw [List.filterMap_cons_none hfa]
      rw [List.filter_cons_of_neg (by simp [hfa])]
      exact ih
    · rw [List.filterMap_cons_some hfa]
      rw [List.filter_cons_of_pos (by simp [hfa])]
      rw [List.map_cons, List.map_cons, hfg a b hfa, ih]

theorem loopIssues_map_id (c : List Char) :
    (loopIssues c).map (fun i => i.id) =
      (indianLegalPatterns.filter (fun p => (matchedOfPat c p).isSome)).map
        (fun p => p.id) := by
  unfold loopIssues
  refine map_filterMap_eq_map_filter _ _ _ ?_ _
  intro a b hb
  show b.toLegalPattern.id = a.id
  rw [matchedOfPat_eq_some hb]

theorem loopIssues_ids_sublist (c : List Char) :
    ((loopIssues c).map (fun i => i.id)).Sublist registryIds := by
  unfold loopIssues registryIds
  refine map_filterMap_sublist _ _ _ ?_ _
  intro a b hb
  show b.toLegalPattern.id = a.id
  rw [matchedOfPat_eq_some hb]

theorem registryIds_pairwise :
    registryIds.Pairwise (fun a b => regIndex a ≤ regIndex b) := by
  decide!

theorem loopIssues_ids_pairwise (c : List Char) :
    ((loopIssues c).map (fun i => i.id)).Pairwise (fun a b => regIndex a ≤ regIndex b) :=
  registryIds_pairwise.sublist (loopIssues_ids_sublist c)

theorem containsSub_false_of_lower (w c : List Char) (hw : w.map lowerC = w)
    (h : containsSub w (c.map lowerC) = false) : containsSub w c = false := by
  rw [Bool.eq_false_iff] at h ⊢
  intro hc
  exact h (by rw [← hw]; exact containsSub_map_lower w c hc)

theorem hasDisputeResolution_false (c : List Char)
    (h1 : containsSub (lit "arbitration") (c.map lowerC) = false)
    (h2 : containsSub (lit "mediation") (c.map lowerC) = false)
    (h3 : containsSub (lit "dispute resolution") (c.map lowerC) = false)
    (h4 : containsSub (lit "court") (c.map lowerC) = false) :
    hasDisputeResolution c = false := by
  unfold hasDisputeResolution disputeResolutionScan
  rw [Bool.eq_false_iff]
  intro hsome
  rw [jsMatchList_alts_isSome_iff] at hsome
  rcases hsome with ⟨n, hn⟩
  rw [List.findSome?_isSome_iff] at hn
  rcases hn with ⟨a, ha, hga⟩
  have hsubj : (if true then c.map lowerC else c) = c.map lowerC := rfl
  rw [hsubj] at hga
  simp only [List.mem_cons, List.mem_singleton, List.not_mem_nil, or_false] at ha
  rcases ha with rfl | rfl | rfl | rfl
  · rw [greedyMatchLen_single_isSome] at hga
    exact absurd ((containsSub_iff _ _).mpr ⟨n, hga⟩) (by rw [h1]; exact Bool.false_ne_true)
  · rw [greedyMatchLen_single_isSome] at hga
    exact absurd ((containsSub_iff _ _).mpr ⟨n, hga⟩) (by rw [h2]; exact Bool.false_ne_true)
  · rw [greedyMatchLen_single_isSome] at hga
    exact absurd ((containsSub_iff _ _).mpr ⟨n, hga⟩) (by rw [h3]; exact Bool.false_ne_true)
  · rw [greedyMatchLen_cons_isSome] at hga
    rcases Bool.and_eq_true _ _ |>.mp hga with ⟨_, hseq⟩
    rw [containsSeq_cons_iff] at hseq
    rcases hseq with ⟨m, hm, _⟩
    rw [List.drop_drop, List.drop_drop] at hm
    exact absurd ((containsSub_iff _ _).mpr ⟨_, hm⟩) (by rw [h4]; exact Bool.false_ne_true)

theorem missingArb_lit_lower :
    (lit "arbitration").map lowerC = lit "arbitration" ∧
    (lit "mediation").map lowerC = lit "mediation" ∧
    (lit "dispute resolution").map lowerC = lit "dispute resolution" ∧
    (lit "court").map lowerC = lit "court" := by
  refine ⟨?_, ?_, ?_, ?_⟩ <;> decide!

theorem matchedOfPat_missingArb_isSome (c : List Char) :
    (matchedOfPat c missingArbitrationRule).isSome =
      (!containsSub (lit "arbitration") c && !containsSub (lit "mediation") c &&
       !containsSub (lit "dispute resolution") c && !containsSub (lit "court") c) := by
  rw [matchedOfPat_negLook c missingArbitrationRule
    [lit "arbitration", lit "mediation", lit "dispute resolution", lit "court"] rfl]
  simp [List.all, Bool.and_assoc]

theorem ulRule_id_ne : (unlimitedLiabilityRule.id == "missing_arbitration") = false := by
  decide!

theorem pcRule_id_ne : (penaltyClauseRule.id == "missing_arbitration") = false := by
  decide!

theorem fjRule_id_ne : (foreignJurisdictionRule.id == "missing_arbitration") = false := by
  decide!

theorem utRule_id_ne : (unfairTerminationRule.id == "missing_arbitration") = false := by
  decide!

theorem maRule_id_eq : (missingArbitrationRule.id == "missing_arbitration") = true := by
  decide!

theorem loopIssues_countP_ma (c : List Char) :
    (loopIssues c).countP (fun i => i.id == "missing_arbitration") =
      if (matchedOfPat c missingArbitrationRule).isSome then 1 else 0 := by
  rw [loopIssues_countP]
  unfold indianLegalPatterns
  simp only [List.countP_cons, List.countP_nil, ulRule_id_ne, pcRule_id_ne, fjRule_id_ne,
    utRule_id_ne, maRule_id_eq, Bool.and_false, Bool.and_true]
  cases (matchedOfPat c missingArbitrationRule).isSome <;> simp

theorem issues_countP_ma (t : String) :
    (analyzeDocument t).issues.countP (fun i => i.id == "missing_arbitration") =
      (if (matchedOfPat (cleanText t) missingArbitrationRule).isSome then 1 else 0) +
      (if hasDisputeResolution (cleanText t) then 0 else 1) := by
  rw [analyzeDocument_issues, List.countP_append, loopIssues_countP_ma,
    postIssues_countP]
  cases (matchedOfPat (cleanText t) missingArbitrationRule).isSome <;>
    cases hasDisputeResolution (cleanText t) <;> simp

/-! ## The claims -/

/-- C1, counterexample.  The claim says the empty string yields risk score
exactly 0.15 with exactly one issue.  In fact the `missing_arbitration`
rule's own negative-lookahead pattern matches the empty cleaned text in
the main loop (it is iterated over like every other rule), and the
post-loop pass then emits the same issue a second time, so the result has
two issues and risk score 0.15 + 0.15 = 0.3. -/
theorem claim_C1_counterexample :
    ¬((analyzeDocument "").riskScore = 0.15 ∧ (analyzeDocument "").totalIssues = 1) := by
  decide!

/-- C1, amended.  For the empty string input, `analyzeDocument` returns
risk score equal to the binary64 value 0.3 (the weight 0.15 is added
twice) and exactly two issues, both with id `missing_arbitration`: one
emitted by the main loop (whose negative-lookahead pattern matches the
empty cleaned text) and one appended by the post-loop pass. -/
theorem claim_C1_amended :
    (analyzeDocument "").riskScore = dbl 0.3 ∧
    (analyzeDocument "").totalIssues = 2 ∧
    (analyzeDocument "").issues.map (fun i => i.id) =
      ["missing_arbitration", "missing_arbitration"] := by
  decide!

/-- C2, counterexample.  The claim says the `missing_arbitration` issue is
emitted only by the post-loop scan — so there would be exactly one such
issue when the scan finds no dispute-resolution language, and none
otherwise.  On the empty string the scan finds nothing, yet the result
carries TWO `missing_arbitration` entries: the rule's pattern field IS
evaluated by the main loop and matches. -/
theorem claim_C2_counterexample :
    ¬(((analyzeDocument "").issues.countP (fun i => i.id == "missing_arbitration")) =
        if hasDisputeResolution (cleanText "") then 0 else 1) := by
  decide!

/-- C2, amended.  The `missing_arbitration` rule's pattern field IS
evaluated in the main per-rule loop like any other rule: it matches
exactly when the cleaned text contains, case-sensitively, none of
`arbitration`, `mediation`, `dispute resolution`, `court`, and then a
`missing_arbitration` issue is emitted at the rule's registry position.
Independently, the post-loop scan appends one more `missing_arbitration`
issue — carrying the synthetic excerpt `No dispute resolution mechanism
found in document` — exactly when it finds none of arbitration /
mediation / dispute resolution / jurisdiction-followed-by-court
phrasing, so the issue count for this rule is the sum of the two
independent indicators. -/
theorem claim_C2_amended (t : String) :
    ((analyzeDocument t).issues.countP (fun i => i.id == "missing_arbitration")) =
      ((if (matchedOfPat (cleanText t) missingArbitrationRule).isSome then 1 else 0) +
        (if hasDisputeResolution (cleanText t) then 0 else 1)) ∧
    (matchedOfPat (cleanText t) missingArbitrationRule).isSome =
      (!containsSub (lit "arbitration") (cleanText t) &&
       !containsSub (lit "mediation") (cleanText t) &&
       !containsSub (lit "dispute resolution") (cleanText t) &&
       !containsSub (lit "court") (cleanText t)) ∧
    (hasDisputeResolution (cleanText t) = false →
      ∃ i, postIssues (cleanText t) = [i] ∧ i.id = "missing_arbitration" ∧
        i.matchedText = missingArbSynthetic ∧
        (analyzeDocument t).issues = loopIssues (cleanText t) ++ [i]) := by
  refine ⟨issues_countP_ma t, matchedOfPat_missingArb_isSome (cleanText t), ?_⟩
  intro hdr
  refine ⟨{ toLegalPattern := missingArbitrationRule, matchCount := 1,
            matchedText := missingArbSynthetic }, ?_, rfl, rfl, ?_⟩
  · rw [postIssues_eq, hdr]
    rfl
  · rw [analyzeDocument_issues, postIssues_eq, hdr]
    rfl

/-- C2, witness for the amended claim's conditional part, at the empty
string (where the scan finds no dispute-resolution language). -/
theorem claim_C2_witness :
    ∃ i, postIssues (cleanText "") = [i] ∧ i.id = "missing_arbitration" ∧
      i.matchedText = missingArbSynthetic ∧
      (analyzeDocument "").issues = loopIssues (cleanText "") ++ [i] :=
  (claim_C2_amended "").2.2 (by decide!)

/-- C3, counterexample.  The claim says each rule's weight enters the
score at most once per run.  In the source, a weight is added exactly
when an issue for the rule is pushed (legal-patterns.ts:92-101 and
110-115), so the claim entails at most one `missing_arbitration` entry
per run — yet on the empty string there are two (and the score is
0.15 + 0.15 = 0.3, as claim C1's amendment records). -/
theorem claim_C3_counterexample :
    ¬(((analyzeDocument "").issues.countP (fun i => i.id == "missing_arbitration")) ≤ 1) := by
  decide!

/-- C3, amended.  Per analysis run, every rule other than
`missing_arbitration` is emitted (and its weight added) at most once,
regardless of how many times its pattern occurs in the text; the
`missing_arbitration` rule can be emitted (and its 0.15 weight added) up
to twice — once by the main loop and once by the post-loop pass. -/
theorem claim_C3_amended (t : String) (r : LegalPattern) (hr : r ∈ indianLegalPatterns) :
    ((analyzeDocument t).issues.countP (fun i => i.id == r.id)) ≤
      (if r.id == "missing_arbitration" then 2 else 1) := by
  rw [analyzeDocument_issues, List.countP_append, loopIssues_countP, postIssues_countP]
  have hreg : indianLegalPatterns.countP (fun p => p.id == r.id) = 1 := by
    have hr' : r = unlimitedLiabilityRule ∨ r = penaltyClauseRule ∨
        r = foreignJurisdictionRule ∨ r = missingArbitrationRule ∨
        r = unfairTerminationRule := by
      simpa [indianLegalPatterns] using hr
    rcases hr' with rfl | rfl | rfl | rfl | rfl <;> decide!
  have hle := registry_countP_matched_le (cleanText t) r.id
  rw [hreg] at hle
  by_cases hma : (r.id == "missing_arbitration") = true
  · rw [if_pos hma]
    have hpost : (if hasDisputeResolution (cleanText t) then 0
        else if "missing_arbitration" == r.id then 1 else 0) ≤ 1 := by
      split_ifs <;> omega
    omega
  · rw [if_neg hma]
    have hsym : ("missing_arbitration" == r.id) = false := by
      rw [Bool.eq_false_iff]
      intro hcon
      rw [beq_iff_eq] at hcon
      exact hma (by rw [beq_iff_eq]; exact hcon.symm)
    have hpost : (if hasDisputeResolution (cleanText t) then 0
        else if "missing_arbitration" == r.id then 1 else 0) = 0 := by
      rw [hsym]
      simp
    omega

/-- C3, witness: the amended bound applied to the first registry rule on
the empty string. -/
theorem claim_C3_witness :
    ((analyzeDocument "").issues.countP (fun i => i.id == unlimitedLiabilityRule.id)) ≤
      (if unlimitedLiabilityRule.id == "missing_arbitration" then 2 else 1) :=
  claim_C3_amended "" unlimitedLiabilityRule
    (by unfold indianLegalPatterns; exact List.mem_cons_self _ _)

/-- C4, counterexample.  A text that triggers all five registry rules
exactly once (the capitalized `Court` after `jurisdiction` satisfies the
case-insensitive second-pass scan, suppressing the post-loop emission,
while leaving the case-sensitive loop pattern of `missing_arbitration`
matching) yields risk score 0.25 + 0.25 + 0.15 + 0.15 + 0.15 evaluated
in binary64, which is 0.9500000000000001 — NOT exactly 0.95 as the claim
requires. -/
theorem claim_C4_counterexample :
    ((analyzeDocument "unlimited liability penalty governed by law of singapore jurisdiction Court terminate without notice").issues.map
        (fun i => i.id)) =
      ["unlimited_liability", "penalty_clause", "foreign_jurisdiction",
       "missing_arbitration", "unfair_termination"] ∧
    ¬((analyzeDocument "unlimited liability penalty governed by law of singapore jurisdiction Court terminate without notice").riskScore = 0.95) := by
  decide!

/-- C4, amended.  When all five registry rules trigger in the main loop
and the post-loop pass does not fire, the risk score is the binary64
left-to-right sum of the five weights, 8556839292003943 / 2^53 =
0.9500000000000001 (one unit in the last place above 0.95; the exact
decimal 0.95 is never attained); and whenever the accumulated raw score
exceeds 1, the returned risk score is exactly 1 (saturating clamp, not
normalization). -/
theorem claim_C4_amended :
    (∀ t : String,
      (matchedOfPat (cleanText t) unlimitedLiabilityRule).isSome = true →
      (matchedOfPat (cleanText t) penaltyClauseRule).isSome = true →
      (matchedOfPat (cleanText t) foreignJurisdictionRule).isSome = true →
      (matchedOfPat (cleanText t) missingArbitrationRule).isSome = true →
      (matchedOfPat (cleanText t) unfairTerminationRule).isSome = true →
      hasDisputeResolution (cleanText t) = true →
      (analyzeDocument t).riskScore = 8556839292003943 / 2 ^ 53) ∧
    (∀ t : String, 1 < rawScore (cleanText t) →
      (analyzeDocument t).riskScore = 1) := by
  constructor
  · intro t h1 h2 h3 h4 h5 h6
    rw [analyzeDocument_riskScore, rawScore_eq_chain, h1, h2, h3, h4, h5, h6]
    decide!
  · intro t h
    rw [analyzeDocument_riskScore]
    exact min_eq_right (le_of_lt h)

/-- C4, witness: the first part at the all-five text with the scan
satisfied (`jurisdiction Court`), the second at a text whose raw sum is
0.25 + 0.25 + 0.15 + 0.15 + 0.15 + 0.15 > 1. -/
theorem claim_C4_witness :
    (analyzeDocument "unlimited liability penalty governed by law of singapore jurisdiction Court terminate without notice").riskScore =
      8556839292003943 / 2 ^ 53 ∧
    (analyzeDocument "unlimited liability penalty governed by law of singapore terminate without notice").riskScore = 1 :=
  ⟨claim_C4_amended.1 _ (by decide!) (by decide!) (by decide!) (by decide!) (by decide!)
      (by decide!),
   claim_C4_amended.2 _ (by decide!)⟩

/-- C5, counterexample.  On the spec's scenario sentence the analyzer
does NOT return the issue set {foreign_jurisdiction, unfair_termination,
missing_arbitration} (in any order): the foreign-jurisdiction regex
lists `english` but not `england`, so `laws of England` does not match,
and `missing_arbitration` appears twice instead. -/
theorem claim_C5_counterexample :
    ¬(((analyzeDocument "This agreement shall be governed by the laws of England. The employer may terminate employment immediately without notice.").issues.map
        (fun i => i.id)).Perm
      ["foreign_jurisdiction", "unfair_termination", "missing_arbitration"]) := by
  decide!

/-- C5, amended.  For the scenario input, `analyzeDocument` returns the
issues `missing_arbitration` (emitted by the main loop), then
`unfair_termination`, then `missing_arbitration` again (appended by the
post-loop pass) — all MEDIUM —, `totalIssues = 3`, and risk score equal
to the binary64 sum 0.15 + 0.15 + 0.15 = 2026619832316723 / 2^52 =
0.44999999999999996, which is one unit in the last place below 0.45
(`foreign_jurisdiction` does not trigger because the regex's
jurisdiction alternation has `english`, not `england`). -/
theorem claim_C5_amended :
    ((analyzeDocument "This agreement shall be governed by the laws of England. The employer may terminate employment immediately without notice.").issues.map
        (fun i => i.id)) =
      ["missing_arbitration", "unfair_termination", "missing_arbitration"] ∧
    ((analyzeDocument "This agreement shall be governed by the laws of England. The employer may terminate employment immediately without notice.").issues.map
        (fun i => i.riskLevel)) = [.MEDIUM, .MEDIUM, .MEDIUM] ∧
    (analyzeDocument "This agreement shall be governed by the laws of England. The employer may terminate employment immediately without notice.").riskScore =
      2026619832316723 / 2 ^ 52 ∧
    ¬((analyzeDocument "This agreement shall be governed by the laws of England. The employer may terminate employment immediately without notice.").riskScore = 0.45) ∧
    (analyzeDocument "This agreement shall be governed by the laws of England. The employer may terminate employment immediately without notice.").totalIssues = 3 := by
  decide!

/-- C6, counterexample.  The issues list is NOT always in registry
definition order: on `terminate without notice` the list is
[missing_arbitration, unfair_termination, missing_arbitration] — the
post-loop pass appends its entry at the END, after the higher-indexed
unfair_termination, so the registry positions of the entries are not
non-decreasing. -/
theorem claim_C6_counterexample :
    ¬(((analyzeDocument "terminate without notice").issues.map
        (fun i => regIndex i.id)).Pairwise (fun a b => a ≤ b)) := by
  decide!

/-- C6, amended.  The issues list is the main loop's emissions followed
by the post-loop pass's emission: the loop entries appear in registry
definition order (their registry positions are pairwise non-decreasing,
not sorted by severity or score), and the only entry that can break
registry order is the single post-loop `missing_arbitration` entry,
which, when present, is appended last. -/
theorem claim_C6_amended (t : String) :
    ∃ post, (analyzeDocument t).issues = loopIssues (cleanText t) ++ post ∧
      (((loopIssues (cleanText t)).map (fun i => i.id)).Pairwise
        (fun a b => regIndex a ≤ regIndex b)) ∧
      (post = [] ∨ ∃ i, post = [i] ∧ i.id = "missing_arbitration") := by
  refine ⟨postIssues (cleanText t), analyzeDocument_issues t,
    loopIssues_ids_pairwise (cleanText t), ?_⟩
  rw [postIssues_eq]
  cases hdr : hasDisputeResolution (cleanText t)
  · right
    refine ⟨{ toLegalPattern := missingArbitrationRule, matchCount := 1,
              matchedText := missingArbSynthetic }, by simp, rfl⟩
  · left
    simp

/-- C7, counterexample.  Appending an additional occurrence of the
rule-triggering phrase `terminate at will` (it triggers
unfair_termination) to `terminate at will cour` DECREASES the risk
score from 0.45-ish to 0.3-ish: the concatenation boundary spells
`...courterminate...`, so the cleaned text now contains `court`, the
main-loop negative-lookahead `missing_arbitration` match is lost, and
its 0.15 weight with it. -/
theorem claim_C7_counterexample :
    (matchedOfPat (cleanText "terminate at will") unfairTerminationRule).isSome = true ∧
    (analyzeDocument ("terminate at will cour" ++ "terminate at will")).riskScore <
      (analyzeDocument "terminate at will cour").riskScore := by
  decide!

/-- C7, amended.  Monotonicity holds for the four positively-matched
rules: appending any text never un-matches them.  Hence, whenever the
two missing-dispute-resolution determinations (the main-loop
negative-lookahead match and the second-pass scan) are unchanged by the
append, the risk score is monotonically non-decreasing. -/
theorem claim_C7_amended (t p : String)
    (hma : (matchedOfPat (cleanText (t ++ p)) missingArbitrationRule).isSome =
      (matchedOfPat (cleanText t) missingArbitrationRule).isSome)
    (hdr : hasDisputeResolution (cleanText (t ++ p)) =
      hasDisputeResolution (cleanText t)) :
    (analyzeDocument t).riskScore ≤ (analyzeDocument (t ++ p)).riskScore := by
  rw [analyzeDocument_riskScore, analyzeDocument_riskScore, rawScore_eq_chain,
    rawScore_eq_chain, hma, hdr]
  rcases cleanText_append_prefix t p with ⟨w, hw⟩
  refine min_le_min ?_ (le_refl 1)
  apply chainScore_mono
  · intro h1
    rw [hw]
    exact matchedOfPat_alts_mono unlimitedLiabilityRule rfl _ w h1
  · intro h2
    rw [hw]
    exact matchedOfPat_alts_mono penaltyClauseRule rfl _ w h2
  · intro h3
    rw [hw]
    exact matchedOfPat_alts_mono foreignJurisdictionRule rfl _ w h3
  · intro h5
    rw [hw]
    exact matchedOfPat_alts_mono unfairTerminationRule rfl _ w h5

/-- C7, witness: appending a second occurrence of `penalty` (with a
space) leaves both missing-dispute-resolution determinations unchanged,
and the score does not decrease. -/
theorem claim_C7_witness :
    (analyzeDocument "penalty").riskScore ≤
      (analyzeDocument ("penalty" ++ " penalty")).riskScore :=
  claim_C7_amended "penalty" " penalty" (by decide!) (by decide!)

/-- C8, confirmed.  For every input text, the returned risk score lies in
the closed interval [0, 1]: the accumulated raw score is a sum of
non-negative binary64 weights, and the final `Math.min(riskScore, 1)`
caps it at 1. -/
theorem claim_C8 (t : String) :
    0 ≤ (analyzeDocument t).riskScore ∧ (analyzeDocument t).riskScore ≤ 1 := by
  rw [analyzeDocument_riskScore]
  refine ⟨le_min ?_ (by norm_num), min_le_right _ _⟩
  rw [rawScore_eq_chain]
  exact chainScore_nonneg _ _ _ _ _ _

/-- C9, confirmed.  `analyzeDocument` is total over all string inputs:
the variant `analyzeDocumentE`, in which JavaScript's only candidate
failure points (the guarded `matches[0]` and `find` accesses) are
modelled as fallible, returns `Except.ok` of the total model's result on
every input — no exception is ever raised. -/
theorem claim_C9 (t : String) :
    analyzeDocumentE t = Except.ok (analyzeDocument t) := by
  unfold analyzeDocumentE
  simp only [loopIssuesE_ok]
  rfl

/-- C10, confirmed.  For every input whose cleaned text contains,
case-insensitively, none of `arbitration`, `mediation`,
`dispute resolution`, `court`: the main loop's negative-lookahead
pattern matches (case-insensitive absence implies case-sensitive
absence) and emits a `missing_arbitration` issue at the rule's registry
position, the second-pass scan finds nothing and appends another one, so
the result carries exactly two `missing_arbitration` entries and the
accumulated score is the loop's score plus one more 0.15 weight. -/
theorem claim_C10 (t : String)
    (h1 : containsSub (lit "arbitration") ((cleanText t).map lowerC) = false)
    (h2 : containsSub (lit "mediation") ((cleanText t).map lowerC) = false)
    (h3 : containsSub (lit "dispute resolution") ((cleanText t).map lowerC) = false)
    (h4 : containsSub (lit "court") ((cleanText t).map lowerC) = false) :
    ((analyzeDocument t).issues.countP (fun i => i.id == "missing_arbitration")) = 2 ∧
    ((loopIssues (cleanText t)).countP (fun i => i.id == "missing_arbitration")) = 1 ∧
    ((postIssues (cleanText t)).countP (fun i => i.id == "missing_arbitration")) = 1 ∧
    (matchedOfPat (cleanText t) missingArbitrationRule).isSome = true ∧
    hasDisputeResolution (cleanText t) = false ∧
    rawScore (cleanText t) = fadd (loopScore (cleanText t)) (dbl 0.15) := by
  have hdr : hasDisputeResolution (cleanText t) = false :=
    hasDisputeResolution_false (cleanText t) h1 h2 h3 h4
  have hflag : (matchedOfPat (cleanText t) missingArbitrationRule).isSome = true := by
    rw [matchedOfPat_missingArb_isSome]
    rcases missingArb_lit_lower with ⟨hw1, hw2, hw3, hw4⟩
    rw [containsSub_false_of_lower _ _ hw1 h1, containsSub_false_of_lower _ _ hw2 h2,
      containsSub_false_of_lower _ _ hw3 h3, containsSub_false_of_lower _ _ hw4 h4]
    rfl
  refine ⟨?_, ?_, ?_, hflag, hdr, ?_⟩
  · rw [issues_countP_ma, hflag, hdr]
    rfl
  · rw [loopIssues_countP_ma, hflag]
    rfl
  · rw [postIssues_countP, hdr]
    rfl
  · rw [rawScore_eq, hdr]
    rfl

/-- C10, witness: the empty string contains none of the four phrases. -/
theorem claim_C10_witness :
    ((analyzeDocument "").issues.countP (fun i => i.id == "missing_arbitration")) = 2 ∧
    ((loopIssues (cleanText "")).countP (fun i => i.id == "missing_arbitration")) = 1 ∧
    ((postIssues (cleanText "")).countP (fun i => i.id == "missing_arbitration")) = 1 ∧
    (matchedOfPat (cleanText "") missingArbitrationRule).isSome = true ∧
    hasDisputeResolution (cleanText "") = false ∧
    rawScore (cleanText "") = fadd (loopScore (cleanText "")) (dbl 0.15) :=
  claim_C10 "" (by decide!) (by decide!) (by decide!) (by decide!)
